import Mathlib

/-!
# Verification of the review-scraping pipeline

Shallow embedding of the core pipeline of the repository
(`config.py`, `utils.py`, `enhanced_scraper.py`):

* Python strings are modelled as `List Char`; the Python string
  operations used by the code (`str.strip`, `str.split()` with no
  argument, `' '.join`, `str.replace`) are translated below with
  Python's semantics (`pyStrip`, `pySplit`, `joinWords`, `pyReplace`).
* Network fetches, document parsing and CSS selection are modelled by
  oracles: a `Document` maps a selector to the outcome of
  `soup.select` (a list of element texts, or a raised exception), and a
  fetch oracle maps a URL to the outcome of `session.get`
  (a response with a status code and a parsed document, or one of the
  exception classes the code catches).  Wall-clock timestamps
  (`datetime.now()`) and the politeness `time.sleep` are outside the
  embedding: no claim constrains them.
* File-system state for the checkpoint store is modelled by
  `CheckpointFile`: the file is absent, or unparseable (any exception
  inside the `try` of `load_checkpoint`), or holds a parsed JSON value.
-/

/-- Python whitespace for `str.strip` / `str.split()`:
space, tab, newline, carriage return, vertical tab, form feed. -/
def isPySpace (c : Char) : Bool :=
  c = ' ' || c = '\t' || c = '\n' || c = '\r' || c = '\x0b' || c = '\x0c'

/-- Python `s.strip()` on `List Char`: remove leading and trailing
whitespace. -/
def pyStrip (s : List Char) : List Char :=
  ((s.dropWhile isPySpace).reverse.dropWhile isPySpace).reverse

/-- Worker for `pySplit`: scans the string, accumulating the current
word in reverse in `acc`. -/
def pySplitAux : List Char → List Char → List (List Char)
  | [], acc => if acc = [] then [] else [acc.reverse]
  | c :: rest, acc =>
    if isPySpace c then
      if acc = [] then pySplitAux rest []
      else acc.reverse :: pySplitAux rest []
    else pySplitAux rest (c :: acc)

/-- Python `s.split()` (no argument): split on runs of whitespace,
discarding empty pieces. -/
def pySplit (s : List Char) : List (List Char) :=
  pySplitAux s []

/-- Python `' '.join(words)`. -/
def joinWords : List (List Char) → List Char
  | [] => []
  | w :: ws =>
    match ws with
    | [] => w
    | _ :: _ => w ++ ' ' :: joinWords ws

/-- Worker for `pyReplace`: the `fuel` argument only bounds the
recursion depth (each step consumes at least one character, so any
fuel at least the string's length gives the untruncated result). -/
def pyReplaceAux (old new : List Char) : Nat → List Char → List Char
  | _, [] => []
  | 0, s => s
  | fuel + 1, c :: rest =>
    if old ≠ [] ∧ old.isPrefixOf (c :: rest) then
      new ++ pyReplaceAux old new fuel ((c :: rest).drop old.length)
    else
      c :: pyReplaceAux old new fuel rest

/-- Python `s.replace(old, new)`: replace every non-overlapping
occurrence of `old`, scanning left to right and resuming after the
replacement.  (Python's behaviour for `old = ""` is irrelevant here:
every pattern the code passes is non-empty, and we return `s`.) -/
def pyReplace (old new s : List Char) : List Char :=
  pyReplaceAux old new s.length s

/-- The literal patterns removed by `DataProcessor.clean_review_text`
(`utils.py` lines 23-29), in order. -/
def patterns_to_remove : List (List Char) :=
  [['R', 'A', 'T', 'E', 'D', '\n'],
   ['R', 'a', 't', 'e', 'd', ' '],
   ['\n'],
   ['\r'],
   ['\t']]

/-- `DataProcessor.clean_review_text` (`utils.py` lines 13-37):
collapse whitespace, remove the artifact patterns (each replaced by a
single space), collapse whitespace again, and strip. -/
def clean_review_text (text : List Char) : List Char :=
  if text = [] then []
  else
    let t1 := joinWords (pySplit text)
    let t2 := patterns_to_remove.foldl (fun t p => pyReplace p [' '] t) t1
    let t3 := joinWords (pySplit t2)
    pyStrip t3

/-- A review record as handled by `DataProcessor`: only the `review`
field is inspected or rewritten by validation/deduplication; `meta`
stands for the remaining dictionary fields (`restaurant_url`, `page`,
`scraped_at`), which pass through untouched. -/
structure ReviewRec where
  review : List Char
  meta : Nat
deriving DecidableEq, Repr

/-- The per-record predicate of `DataProcessor.validate_reviews`
(`utils.py` lines 61-76): trimmed length at least `min_length`, not
reduced to nothing by deleting spaces/newlines/tabs, and containing at
least one alphabetic character. -/
def validKeep (min_length : Nat) (r : ReviewRec) : Bool :=
  let t := pyStrip r.review
  ¬ t.length < min_length
    && pyReplace ['\t'] [] (pyReplace ['\n'] [] (pyReplace [' '] [] t)) ≠ []
    && t.any Char.isAlpha

/-- `DataProcessor.validate_reviews` (`utils.py` lines 56-79): keep the
records passing all three checks, in order. -/
def validate_reviews (reviews : List ReviewRec) (min_length : Nat) :
    List ReviewRec :=
  reviews.filter (validKeep min_length)

/-- Worker for `deduplicate_reviews`, threading the `seen_reviews`
set (modelled as the list of trimmed texts added so far). -/
def dedupAux (seen : List (List Char)) : List ReviewRec → List ReviewRec
  | [] => []
  | r :: rest =>
    let t := pyStrip r.review
    if t ≠ [] ∧ t ∉ seen then
      { r with review := clean_review_text t } :: dedupAux (t :: seen) rest
    else
      dedupAux seen rest

/-- `DataProcessor.deduplicate_reviews` (`utils.py` lines 39-54): keep
the first record for each distinct trimmed text (skipping records whose
text is empty after trimming), and rewrite the kept record's text with
`clean_review_text`. -/
def deduplicate_reviews (reviews : List ReviewRec) : List ReviewRec :=
  dedupAux [] reviews

/-! ## Configuration (`config.py`) -/

/-- `MAX_PAGES` (`config.py` line 10): maximum pages crawled per
restaurant. -/
def MAX_PAGES : Nat := 5

/-- `CHUNK_SIZE` (`config.py` line 14): checkpoint cadence. -/
def CHUNK_SIZE : Nat := 10

/-- `MIN_REVIEW_LENGTH` (`config.py` line 43): length threshold used by
the content extractor and by the final validation pass. -/
def MIN_REVIEW_LENGTH : Nat := 20

/-- `REVIEW_SELECTORS` (`config.py` lines 27-40): the ordered CSS
selector fallback list. -/
def REVIEW_SELECTORS : List String :=
  ["p.sc-1hez2tp-0.sc-hfLElm.hreYiP",
   "p.sc-1hez2tp-0.hreYiP",
   "p.hreYiP",
   "div.sc-dgAbBl.ceFzZe p",
   "section.sc-jOnSTu.cfrSOJ p",
   "div[data-testid=review-text]",
   "div.reviews-text",
   "p.review-text",
   "div.review-content p",
   "[class*=review] p",
   "div[class*=review-text]",
   "p[class*=review]"]

/-! ## Content extractor (`enhanced_scraper.py`, `_extract_reviews`) -/

/-- Outcome of `soup.select(selector)` for one selector: either the
matched elements (each modelled by its raw text, from which
`get_text(strip=True)` trims whitespace), or a raised exception. -/
inductive SelectOutcome where
  | ok (blocks : List (List Char))
  | exn
deriving Repr

/-- A parsed document, modelled by the outcome of `soup.select` on each
selector string. -/
def Document : Type := String → SelectOutcome

/-- The body of the `if review_blocks:` branch of `_extract_reviews`
(`enhanced_scraper.py` lines 87-90): take each block's stripped text
and keep it when it is truthy and strictly longer than
`MIN_REVIEW_LENGTH`. -/
def extractTexts (blocks : List (List Char)) : List (List Char) :=
  blocks.filterMap fun b =>
    let text := pyStrip b
    if text ≠ [] ∧ MIN_REVIEW_LENGTH < text.length then some text else none

/-- `ZomatoReviewScraper._extract_reviews` (`enhanced_scraper.py`
lines 78-99), generalised over the selector list it iterates (the
program instantiates it with `REVIEW_SELECTORS`): try selectors in
order; an exception in one selector is caught and the loop continues;
the first selector whose selection is non-empty has its blocks
filtered by `extractTexts` and the loop breaks. -/
def extract_reviews (selectors : List String) (soup : Document) :
    List (List Char) :=
  match selectors with
  | [] => []
  | sel :: rest =>
    match soup sel with
    | .exn => extract_reviews rest soup
    | .ok blocks =>
      if blocks = [] then extract_reviews rest soup
      else extractTexts blocks

/-! ## Page crawler (`enhanced_scraper.py`, `_scrape_restaurant_reviews`) -/

/-- Outcome of `self.session.get(full_url, timeout=TIMEOUT)` followed by
parsing: a response (status code plus parsed document), or one of the
exception classes caught by the inner `try` (`requests` timeout,
other `RequestException`, anything else — the last also covering a
parse failure). -/
inductive FetchOutcome where
  | resp (status : Nat) (doc : Document)
  | timeout
  | reqExn
  | otherExn

/-- A fetch oracle: what the network returns for each full URL. -/
def FetchOracle : Type := String → FetchOutcome

def reviewsPath : String := "/reviews"

def pageQuery : String := "?page="

/-- `ZomatoReviewScraper._get_review_url` (`enhanced_scraper.py`
lines 72-76): strip one trailing slash, append the review suffix.
`endswith('/')` is the final character being `'/'` (the suffix is a
single character), and `[:-1]` drops that final character. -/
def get_review_url (restaurant_url : String) : String :=
  let u := if restaurant_url.data.getLast? = some '/' then
             String.mk restaurant_url.data.dropLast
           else restaurant_url
  u ++ reviewsPath

/-- The f-string `f"{review_url}?page={page}"`
(`enhanced_scraper.py` line 108). -/
def mkPageUrl (review_url : String) (page : Nat) : String :=
  review_url ++ pageQuery ++ toString page

/-- One review record built by the crawler (`enhanced_scraper.py`
lines 129-135).  The `scraped_at` wall-clock timestamp is outside the
embedding: no claim constrains it. -/
structure ScrapedReview where
  restaurant_url : String
  page : Nat
  review : List Char
deriving DecidableEq, Repr

/-- The `for page in range(1, MAX_PAGES + 1)` loop of
`_scrape_restaurant_reviews` (`enhanced_scraper.py` lines 107-147),
with `rem` pages left to visit.  Every exception arm of the inner
`try` breaks out of the loop, as does a non-200 status or an empty
extraction; a successful page appends its records and continues.
The surrounding outer `try` can only catch what the loop re-raises —
nothing, since every arm is handled — and the function returns the
accumulated records. -/
def pagesLoop (oracle : FetchOracle) (restaurant_url review_url : String) :
    Nat → Nat → List ScrapedReview → List ScrapedReview
  | _, 0, acc => acc
  | page, rem + 1, acc =>
    match oracle (mkPageUrl review_url page) with
    | .timeout => acc
    | .reqExn => acc
    | .otherExn => acc
    | .resp status doc =>
      if status ≠ 200 then acc
      else
        let page_reviews := extract_reviews REVIEW_SELECTORS doc
        if page_reviews = [] then acc
        else
          pagesLoop oracle restaurant_url review_url (page + 1) rem
            (acc ++ page_reviews.map fun t => ⟨restaurant_url, page, t⟩)

/-- `ZomatoReviewScraper._scrape_restaurant_reviews`
(`enhanced_scraper.py` lines 101-152). -/
def scrape_restaurant_reviews (oracle : FetchOracle)
    (restaurant_url : String) : List ScrapedReview :=
  pagesLoop oracle restaurant_url (get_review_url restaurant_url) 1 MAX_PAGES []

/-! ## Orchestrator (`enhanced_scraper.py`, `scrape_all_reviews`) -/

/-- The `for i, res_url in enumerate(urls)` loop of `scrape_all_reviews`
(`enhanced_scraper.py` lines 161-185), threading the in-memory state
`(all_reviews, processed_urls)`.  The periodic checkpoint/intermediate
saves are file writes that do not change this state and are modelled
separately by the checkpoint store. -/
def scrapeAllLoop (oracle : FetchOracle) :
    List String → List ScrapedReview × List String →
    List ScrapedReview × List String
  | [], st => st
  | u :: rest, (all_reviews, processed_urls) =>
    if u ∈ processed_urls then
      scrapeAllLoop oracle rest (all_reviews, processed_urls)
    else
      scrapeAllLoop oracle rest
        (all_reviews ++ scrape_restaurant_reviews oracle u,
         processed_urls ++ [u])

/-- `ZomatoReviewScraper.scrape_all_reviews` (`enhanced_scraper.py`
lines 154-190), with the checkpoint already loaded into
`processed0`: returns the final `(all_reviews, processed_urls)`. -/
def scrape_all_reviews (oracle : FetchOracle) (urls : List String)
    (processed0 : List String) : List ScrapedReview × List String :=
  scrapeAllLoop oracle urls ([], processed0)

/-! ## Checkpoint store (`utils.py`, `CheckpointManager`) -/

/-- JSON values, as produced by `json.dump` / consumed by `json.load`. -/
inductive JVal where
  | jnull
  | jstr (s : String)
  | jnum (n : Nat)
  | jlist (xs : List JVal)
  | jobj (fields : List (String × JVal))

/-- Contents of the checkpoint file: absent, unparseable (any exception
inside `load_checkpoint`'s `try`), or a parsed JSON value. -/
inductive CheckpointFile where
  | absent
  | corrupt
  | content (j : JVal)

def processedUrlsKey : String := "processed_urls"

def totalReviewsKey : String := "total_reviews"

def timestampKey : String := "timestamp"

def lastProcessedKey : String := "last_processed"

/-- Python `dict.get(key, default)` on a JSON object (keys unique). -/
def jget (fields : List (String × JVal)) (key : String) (dflt : JVal) :
    JVal :=
  match fields with
  | [] => dflt
  | (k, v) :: rest => if k = key then v else jget rest key dflt

/-- `CheckpointManager.save_checkpoint` (`utils.py` lines 142-154):
overwrite the file with the snapshot object.  `ts` stands for the
wall-clock `datetime.now().isoformat()`. -/
def save_checkpoint (processed_urls : List String)
    (all_reviews : List ScrapedReview) (ts : String) : CheckpointFile :=
  .content (.jobj
    [(processedUrlsKey, .jlist (processed_urls.map .jstr)),
     (totalReviewsKey, .jnum all_reviews.length),
     (timestampKey, .jstr ts),
     (lastProcessedKey,
      match processed_urls.getLast? with
      | some u => .jstr u
      | none => .jnull)])

/-- `CheckpointManager.load_checkpoint` (`utils.py` lines 156-169):
an absent file yields `[]`; any exception while reading/parsing is
caught and yields `[]`; otherwise the value under
`"processed_urls"` (defaulting to `[]`) is returned as-is.  A parsed
value that is not an object would make `checkpoint.get` raise, which
the same `except` catches. -/
def load_checkpoint : CheckpointFile → JVal
  | .absent => .jlist []
  | .corrupt => .jlist []
  | .content j =>
    match j with
    | .jobj fields => jget fields processedUrlsKey (.jlist [])
    | _ => .jlist []

/-! ## Helper lemmas -/

lemma extract_reviews_skip (soup : Document) :
    ∀ (pre rest : List String), (∀ s ∈ pre, soup s = .exn ∨ soup s = .ok []) →
      extract_reviews (pre ++ rest) soup = extract_reviews rest soup := by
  intro pre
  induction pre with
  | nil => intro rest _; rfl
  | cons a pre ih =>
    intro rest h
    have hrec := ih rest (fun s hs => h s (by simp [hs]))
    rcases h a (by simp) with ha | ha <;>
      simp [extract_reviews, ha, hrec]

lemma scrapeAllLoop_snd_foldl (oracle : FetchOracle) :
    ∀ (urls : List String) (st : List ScrapedReview × List String),
      (scrapeAllLoop oracle urls st).2
        = urls.foldl (fun acc u => if u ∈ acc then acc else acc ++ [u]) st.2 := by
  intro urls
  induction urls with
  | nil => intro st; rfl
  | cons u rest ih =>
    intro st
    obtain ⟨rs, ps⟩ := st
    by_cases h : u ∈ ps <;> simp [scrapeAllLoop, h, ih]

/-! ## C1: orchestrator behaviour on a failing identifier -/

def cexUrl : String := "u"

def cexOracle : FetchOracle := fun _ => FetchOutcome.timeout

/-- C1 counterexample: with an oracle that times out on every fetch, an
error occurs while processing identifier `cexUrl` (its very first page
fetch raises a timeout, caught inside the page crawler, which returns
no records) — yet the orchestrator still appends `cexUrl` to the
processed list, so it will NOT be retried on a later run, contradicting
the claim that an erroring identifier is not added to the processed
set. -/
theorem scrape_all_error_still_marked_cex :
    cexOracle (mkPageUrl (get_review_url cexUrl) 1) = FetchOutcome.timeout ∧
    scrape_restaurant_reviews cexOracle cexUrl = [] ∧
    (scrape_all_reviews cexOracle [cexUrl] []).2 = [cexUrl] :=
  ⟨rfl, rfl, rfl⟩

/-- C1 (amended): errors while processing an identifier are caught
below the orchestrator (inside the page crawler, which converts them
into a possibly-empty record list); the orchestrator's processed list
is entirely independent of fetch outcomes — every identifier not
already present is appended after its crawl, erroring or not, and the
loop continues.  Hence an erroring identifier is not retried on a later
run. -/
theorem scrape_all_processed_eq_foldl (oracle : FetchOracle)
    (urls processed0 : List String) :
    (scrape_all_reviews oracle urls processed0).2
      = urls.foldl (fun acc u => if u ∈ acc then acc else acc ++ [u]) processed0 :=
  scrapeAllLoop_snd_foldl oracle urls ([], processed0)

/-! ## C3: first matching strategy wins -/

/-- C3: if every selector before `sel` fails (raises, or selects
nothing) and `sel` selects a non-empty element list, the extractor
returns exactly `sel`'s filtered results, and the result does not
depend on the selectors after `sel` (they are never consulted). -/
theorem extract_first_match_wins (soup : Document) (pre : List String)
    (sel : String) (post post' : List String) (blocks : List (List Char))
    (hpre : ∀ s ∈ pre, soup s = .exn ∨ soup s = .ok [])
    (hsel : soup sel = .ok blocks) (hne : blocks ≠ []) :
    extract_reviews (pre ++ sel :: post) soup = extractTexts blocks ∧
    extract_reviews (pre ++ sel :: post) soup
      = extract_reviews (pre ++ sel :: post') soup := by
  have h1 : ∀ q : List String,
      extract_reviews (pre ++ sel :: q) soup = extractTexts blocks := by
    intro q
    rw [extract_reviews_skip soup pre (sel :: q) hpre]
    simp [extract_reviews, hsel, hne]
  exact ⟨h1 post, (h1 post).trans (h1 post').symm⟩

def wSelA : String := "p.review-text"

def wSelB : String := "p[class*=review]"

def wBlockLong : List Char := ("abcdefghijklmnopqrstu").toList

/-- Witness for C3 at a concrete document matched by the first
selector. -/
theorem extract_first_match_wins_witness :
    extract_reviews ([] ++ wSelA :: [wSelB])
        (fun _ => SelectOutcome.ok [wBlockLong])
      = extractTexts [wBlockLong] :=
  (extract_first_match_wins (fun _ => SelectOutcome.ok [wBlockLong]) []
    wSelA [wSelB] [] [wBlockLong] (by simp) rfl (by simp)).1

/-! ## C6: the length filter at the extractor -/

def cBlock20 : List Char := ("abcdefghijklmnopqrst").toList

/-- C6 counterexample: a matched block whose trimmed text has length
exactly `MIN_REVIEW_LENGTH` is discarded by the extractor (the code
keeps only texts strictly longer than the minimum), contradicting the
claim that a block of exactly the minimum length is kept. -/
theorem extract_boundary_block_dropped_cex :
    (pyStrip cBlock20).length = MIN_REVIEW_LENGTH ∧
    extract_reviews REVIEW_SELECTORS (fun _ => SelectOutcome.ok [cBlock20])
      = [] :=
  ⟨by decide, by decide⟩

/-- C6 (amended): for every matched element set, the extractor trims
each block's text and keeps exactly the blocks whose trimmed text is
STRICTLY longer than `MIN_REVIEW_LENGTH` (so a block whose trimmed
length equals the minimum is discarded). -/
theorem extract_discards_upto_min (blocks : List (List Char)) :
    extractTexts blocks
      = (blocks.map pyStrip).filter
          (fun t => MIN_REVIEW_LENGTH < t.length) := by
  induction blocks with
  | nil => rfl
  | cons b bs ih =>
    by_cases h : MIN_REVIEW_LENGTH < (pyStrip b).length
    · have hne : pyStrip b ≠ [] := by
        intro he
        rw [he] at h
        simp [MIN_REVIEW_LENGTH] at h
      simp only [extractTexts, List.filterMap_cons, List.map_cons,
        List.filter_cons] at *
      simp [h, hne, ih]
    · simp only [extractTexts, List.filterMap_cons, List.map_cons,
        List.filter_cons] at *
      simp [h, ih]

/-! ## C5 and C7: checkpoint store -/

/-- C5: saving a checkpoint for `processed_urls` and loading it back
returns exactly `processed_urls`, order preserved (as its JSON
encoding `map jstr`, which determines the list since `jstr` is
injective). -/
theorem checkpoint_roundtrip (processed_urls : List String)
    (all_reviews : List ScrapedReview) (ts : String) :
    load_checkpoint (save_checkpoint processed_urls all_reviews ts)
      = JVal.jlist (processed_urls.map JVal.jstr) := by
  simp [load_checkpoint, save_checkpoint, jget]

/-- C7: loading from an absent or unreadable/corrupt checkpoint file
returns the empty list and does not raise (`load_checkpoint` is a total
function whose `corrupt` arm models the caught exception path). -/
theorem load_checkpoint_absent_corrupt :
    load_checkpoint CheckpointFile.absent = JVal.jlist [] ∧
    load_checkpoint CheckpointFile.corrupt = JVal.jlist [] :=
  ⟨rfl, rfl⟩

/-! ## C4 and C8: page-crawl termination and totality -/

/-- A page is "good" when its fetch returns status 200 and the
extractor produces at least one block: exactly the condition under
which the crawl loop proceeds past it. -/
def pageGood (oracle : FetchOracle) (review_url : String) (p : Nat) : Bool :=
  match oracle (mkPageUrl review_url p) with
  | .resp status doc =>
    decide (status = 200 ∧ extract_reviews REVIEW_SELECTORS doc ≠ [])
  | _ => false

/-- The records a successful page contributes: one per extracted block,
tagged with the source identifier and the page number. -/
def pageRecords (oracle : FetchOracle) (u review_url : String) (p : Nat) :
    List ScrapedReview :=
  match oracle (mkPageUrl review_url p) with
  | .resp _ doc =>
    (extract_reviews REVIEW_SELECTORS doc).map fun t => ⟨u, p, t⟩
  | _ => []

lemma pagesLoop_eq_goodPages (oracle : FetchOracle) (u rurl : String) :
    ∀ (rem page : Nat) (acc : List ScrapedReview),
      pagesLoop oracle u rurl page rem acc
        = acc ++ ((List.range' page rem).takeWhile
            (pageGood oracle rurl)).flatMap (pageRecords oracle u rurl) := by
  intro rem
  induction rem with
  | zero => intro page acc; simp [pagesLoop, List.range']
  | succ rem ih =>
    intro page acc
    cases ho : oracle (mkPageUrl rurl page) with
    | timeout =>
      have hg : pageGood oracle rurl page = false := by simp [pageGood, ho]
      simp [pagesLoop, ho, List.range'_succ, List.takeWhile_cons, hg]
    | reqExn =>
      have hg : pageGood oracle rurl page = false := by simp [pageGood, ho]
      simp [pagesLoop, ho, List.range'_succ, List.takeWhile_cons, hg]
    | otherExn =>
      have hg : pageGood oracle rurl page = false := by simp [pageGood, ho]
      simp [pagesLoop, ho, List.range'_succ, List.takeWhile_cons, hg]
    | resp status doc =>
      by_cases hs : status = 200
      · subst hs
        by_cases hb : extract_reviews REVIEW_SELECTORS doc = []
        · have hg : pageGood oracle rurl page = false := by
            simp [pageGood, ho, hb]
          simp [pagesLoop, ho, hb, List.range'_succ, List.takeWhile_cons, hg]
        · have hg : pageGood oracle rurl page = true := by
            simp [pageGood, ho, hb]
          have hrec : pageRecords oracle u rurl page
              = (extract_reviews REVIEW_SELECTORS doc).map
                  fun t => ⟨u, page, t⟩ := by
            simp [pageRecords, ho]
          simp [pagesLoop, ho, hb, List.range'_succ, List.takeWhile_cons, hg,
            ih, hrec, List.flatMap_cons]
      · have hg : pageGood oracle rurl page = false := by
          simp [pageGood, ho, hs]
        simp [pagesLoop, ho, hs, List.range'_succ, List.takeWhile_cons, hg]

/-- C8: for every fetch oracle — i.e. every assignment of outcomes
(success with any status, timeout, request error, other error/parse
failure) to pages — the crawl is a total function (the embedding of a
function from which, as the `match` arms show, no lower-level error
escapes: each is converted into an early stop), and it returns exactly
the records accumulated over the maximal prefix of pages 1..MAX_PAGES
that fetched with status 200 and extracted at least one block. -/
theorem crawl_total_eq_goodPages (oracle : FetchOracle)
    (restaurant_url : String) :
    scrape_restaurant_reviews oracle restaurant_url
      = ((List.range' 1 MAX_PAGES).takeWhile
          (pageGood oracle (get_review_url restaurant_url))).flatMap
          (pageRecords oracle restaurant_url
            (get_review_url restaurant_url)) := by
  unfold scrape_restaurant_reviews
  rw [pagesLoop_eq_goodPages]
  simp

lemma takeWhile_append_all_head (p : α → Bool) :
    ∀ (l1 : List α) (b : α) (t : List α), (∀ a ∈ l1, p a = true) →
      p b = false → (l1 ++ b :: t).takeWhile p = l1 := by
  intro l1
  induction l1 with
  | nil => intro b t _ hb; simp [List.takeWhile_cons, hb]
  | cons a l1 ih =>
    intro b t h hb
    have ha : p a = true := h a (by simp)
    simp [List.takeWhile_cons, ha, ih b t (fun x hx => h x (by simp [hx])) hb]

/-- C4: if pages 1..k-1 all fetch with status 200 and extract at least
one block each, and page k (k ≤ MAX_PAGES) fetches with status 200 but
extracts zero blocks, the crawl stops at page k and returns exactly the
records of pages 1..k-1, each tagged with its page number and the
source identifier (see `pageRecords`). -/
theorem crawl_stops_at_empty_page (oracle : FetchOracle) (u : String)
    (k : Nat) (hk1 : 1 ≤ k) (hkM : k ≤ MAX_PAGES)
    (hgood : ∀ p ∈ List.range' 1 (k - 1),
      ∃ doc, oracle (mkPageUrl (get_review_url u) p)
          = FetchOutcome.resp 200 doc ∧
        extract_reviews REVIEW_SELECTORS doc ≠ [])
    (hstop : ∃ doc, oracle (mkPageUrl (get_review_url u) k)
        = FetchOutcome.resp 200 doc ∧
      extract_reviews REVIEW_SELECTORS doc = []) :
    scrape_restaurant_reviews oracle u
      = (List.range' 1 (k - 1)).flatMap
          (pageRecords oracle u (get_review_url u)) := by
  unfold scrape_restaurant_reviews
  rw [pagesLoop_eq_goodPages]
  have hsplit : List.range' 1 MAX_PAGES
      = List.range' 1 (k - 1) ++ List.range' k (MAX_PAGES - (k - 1)) := by
    have h1 : 1 + 1 * (k - 1) = k := by omega
    have h2 : (MAX_PAGES - (k - 1)) + (k - 1) = MAX_PAGES := by
      simp [MAX_PAGES] at hkM ⊢
      omega
    have h3 := List.range'_append 1 (k - 1) (MAX_PAGES - (k - 1)) 1
    rw [h1, h2] at h3
    exact h3.symm
  have hlen : MAX_PAGES - (k - 1) = (MAX_PAGES - k) + 1 := by
    simp [MAX_PAGES] at hkM ⊢
    omega
  have hrest : List.range' k (MAX_PAGES - (k - 1))
      = k :: List.range' (k + 1) (MAX_PAGES - k) := by
    rw [hlen, List.range'_succ]
  have hkbad : pageGood oracle (get_review_url u) k = false := by
    obtain ⟨doc, hdoc, hempty⟩ := hstop
    simp [pageGood, hdoc, hempty]
  have hall : ∀ p ∈ List.range' 1 (k - 1),
      pageGood oracle (get_review_url u) p = true := by
    intro p hp
    obtain ⟨doc, hdoc, hne⟩ := hgood p hp
    simp [pageGood, hdoc, hne]
  rw [hsplit, hrest, takeWhile_append_all_head _ _ _ _ hall hkbad]
  simp

def wU : String := "r"

def wDocFull : Document := fun _ => SelectOutcome.ok [wBlockLong]

def wDocEmpty : Document := fun _ => SelectOutcome.ok []

def wOracle4 : FetchOracle := fun url =>
  if url = mkPageUrl (get_review_url wU) 1 then FetchOutcome.resp 200 wDocFull
  else FetchOutcome.resp 200 wDocEmpty

/-- Witness for C4 with k = 2: page 1 succeeds with one block, page 2
succeeds with zero blocks. -/
theorem crawl_stops_at_empty_page_witness :
    scrape_restaurant_reviews wOracle4 wU
      = (List.range' 1 (2 - 1)).flatMap
          (pageRecords wOracle4 wU (get_review_url wU)) :=
  crawl_stops_at_empty_page wOracle4 wU 2 (by decide) (by decide)
    (by
      intro p hp
      have hp1 : p = 1 := by
        simpa [List.range'] using hp
      subst hp1
      exact ⟨wDocFull, by simp [wOracle4], by decide⟩)
    ⟨wDocEmpty, by
      have hne : mkPageUrl (get_review_url wU) 2
          ≠ mkPageUrl (get_review_url wU) 1 := by decide
      simp [wOracle4, hne], by decide⟩

/-! ## C9: the processed list only grows -/

lemma scrapeAllLoop_append (oracle : FetchOracle) :
    ∀ (us vs : List String) (st : List ScrapedReview × List String),
      scrapeAllLoop oracle (us ++ vs) st
        = scrapeAllLoop oracle vs (scrapeAllLoop oracle us st) := by
  intro us
  induction us with
  | nil => intro vs st; rfl
  | cons u us ih =>
    intro vs st
    obtain ⟨rs, ps⟩ := st
    by_cases h : u ∈ ps <;> simp [scrapeAllLoop, h, ih]

lemma scrapeAllLoop_snd_extend (oracle : FetchOracle) :
    ∀ (urls : List String) (st : List ScrapedReview × List String),
      st.2 <+: (scrapeAllLoop oracle urls st).2 := by
  intro urls
  induction urls with
  | nil => intro st; exact List.prefix_refl _
  | cons u rest ih =>
    intro st
    obtain ⟨rs, ps⟩ := st
    by_cases h : u ∈ ps
    · simpa [scrapeAllLoop, h] using
        ih (rs, ps)
    · have h2 := ih (rs ++ scrape_restaurant_reviews oracle u, ps ++ [u])
      simp only [scrapeAllLoop, if_neg h]
      exact (List.prefix_append ps [u]).trans h2

/-- C9: within one run, the in-memory processed list only grows: after
consuming any earlier portion of the identifier list, the processed
list is a prefix (hence an order-preserving superset) of the processed
list after any later portion, and the loaded checkpoint `processed0`
is a prefix of all of them; nothing is ever removed. -/
theorem processed_monotone (oracle : FetchOracle) (processed0 : List String)
    (us vs : List String) (h : us <+: vs) :
    processed0 <+: (scrape_all_reviews oracle us processed0).2 ∧
    (scrape_all_reviews oracle us processed0).2
      <+: (scrape_all_reviews oracle vs processed0).2 := by
  obtain ⟨ts, rfl⟩ := h
  constructor
  · exact scrapeAllLoop_snd_extend oracle us ([], processed0)
  · rw [scrape_all_reviews, scrape_all_reviews, scrapeAllLoop_append]
    exact scrapeAllLoop_snd_extend oracle ts _

/-- Witness for C9 at a concrete run. -/
theorem processed_monotone_witness :
    (["p"] : List String)
        <+: (scrape_all_reviews (fun _ => FetchOutcome.timeout) ["a"] ["p"]).2 ∧
    (scrape_all_reviews (fun _ => FetchOutcome.timeout) ["a"] ["p"]).2
      <+: (scrape_all_reviews (fun _ => FetchOutcome.timeout)
            ["a", "b"] ["p"]).2 :=
  processed_monotone (fun _ => FetchOutcome.timeout) ["p"] ["a"] ["a", "b"]
    ⟨["b"], rfl⟩

/-! ## String lemmas for validation/deduplication -/

lemma mem_dropWhile_self {α : Type} (p : α → Bool) :
    ∀ {l : List α} {c : α}, c ∈ l → p c = false → c ∈ l.dropWhile p := by
  intro l
  induction l with
  | nil => intro c h; simp at h
  | cons a t ih =>
    intro c hc hpc
    cases hpa : p a with
    | true =>
      rw [List.dropWhile_cons_of_pos hpa]
      rcases List.mem_cons.mp hc with rfl | hm
      · rw [hpa] at hpc; cases hpc
      · exact ih hm hpc
    | false =>
      rw [List.dropWhile_cons_of_neg (by simp [hpa])]
      exact hc

lemma pyStrip_ne_nil {s : List Char} (h : ∃ c ∈ s, isPySpace c = false) :
    pyStrip s ≠ [] := by
  obtain ⟨c, hc, hcs⟩ := h
  intro he
  unfold pyStrip at he
  rw [List.reverse_eq_nil_iff, List.dropWhile_eq_nil_iff] at he
  have h2 : c ∈ (s.dropWhile isPySpace).reverse :=
    List.mem_reverse.mpr (mem_dropWhile_self isPySpace hc hcs)
  have := he c h2
  simp [hcs] at this

lemma pyStrip_exists_nonspace {s : List Char} (h : pyStrip s ≠ []) :
    ∃ c ∈ pyStrip s, isPySpace c = false := by
  unfold pyStrip at *
  have hX : (s.dropWhile isPySpace).reverse.dropWhile isPySpace ≠ [] := by
    intro hh; rw [hh] at h; simp at h
  refine ⟨((s.dropWhile isPySpace).reverse.dropWhile isPySpace).head hX,
    ?_, ?_⟩
  · rw [List.mem_reverse]; exact List.head_mem hX
  · exact List.head_dropWhile_not isPySpace _ hX

lemma pySplitAux_words_ne_nil :
    ∀ (s acc : List Char), ∀ w ∈ pySplitAux s acc, w ≠ [] := by
  intro s
  induction s with
  | nil =>
    intro acc w hw
    by_cases h : acc = []
    · simp [pySplitAux, h] at hw
    · simp [pySplitAux, h] at hw
      subst hw
      simpa using h
  | cons c rest ih =>
    intro acc w hw
    cases hc : isPySpace c with
    | true =>
      by_cases h : acc = []
      · simp [pySplitAux, hc, h] at hw
        exact ih [] w hw
      · simp [pySplitAux, hc, h] at hw
        rcases hw with hw | hw
        · subst hw; simpa using h
        · exact ih [] w hw
    | false =>
      simp [pySplitAux, hc] at hw
      exact ih (c :: acc) w hw

lemma pySplitAux_words_nonspace :
    ∀ (s acc : List Char), (∀ a ∈ acc, isPySpace a = false) →
      ∀ w ∈ pySplitAux s acc, ∀ a ∈ w, isPySpace a = false := by
  intro s
  induction s with
  | nil =>
    intro acc hacc w hw a ha
    by_cases h : acc = []
    · simp [pySplitAux, h] at hw
    · simp [pySplitAux, h] at hw
      subst hw
      exact hacc a (List.mem_reverse.mp ha)
  | cons c rest ih =>
    intro acc hacc w hw a ha
    cases hc : isPySpace c with
    | true =>
      by_cases h : acc = []
      · simp [pySplitAux, hc, h] at hw
        exact ih [] (by simp) w hw a ha
      · simp [pySplitAux, hc, h] at hw
        rcases hw with hw | hw
        · subst hw; exact hacc a (List.mem_reverse.mp ha)
        · exact ih [] (by simp) w hw a ha
    | false =>
      simp [pySplitAux, hc] at hw
      refine ih (c :: acc) ?_ w hw a ha
      intro b hb
      rcases List.mem_cons.mp hb with rfl | hb
      · exact hc
      · exact hacc b hb

lemma pySplitAux_ne_nil :
    ∀ (s acc : List Char), (acc ≠ [] ∨ ∃ c ∈ s, isPySpace c = false) →
      pySplitAux s acc ≠ [] := by
  intro s
  induction s with
  | nil =>
    intro acc h
    rcases h with h | h
    · simp [pySplitAux, h]
    · simp at h
  | cons c rest ih =>
    intro acc h
    cases hc : isPySpace c with
    | true =>
      have hrest : acc ≠ [] ∨ ∃ x ∈ rest, isPySpace x = false := by
        rcases h with h | ⟨x, hx, hxs⟩
        · exact Or.inl h
        · rcases List.mem_cons.mp hx with rfl | hx
          · rw [hc] at hxs; cases hxs
          · exact Or.inr ⟨x, hx, hxs⟩
      by_cases hA : acc = []
      · simp [pySplitAux, hc, hA]
        rcases hrest with h' | h'
        · exact absurd hA h'
        · exact ih [] (Or.inr h')
      · simp [pySplitAux, hc, hA]
    | false =>
      simp [pySplitAux, hc]
      exact ih (c :: acc) (Or.inl (by simp))

lemma joinWords_getLast?_nonspace :
    ∀ (ws : List (List Char)), ws ≠ [] → (∀ w ∈ ws, w ≠ []) →
      (∀ w ∈ ws, ∀ a ∈ w, isPySpace a = false) →
      ∃ c, (joinWords ws).getLast? = some c ∧ isPySpace c = false := by
  intro ws
  induction ws with
  | nil => intro h; simp at h
  | cons w ws ih =>
    intro _ hne hsp
    cases ws with
    | nil =>
      have hw : w ≠ [] := hne w (by simp)
      obtain ⟨c, hc⟩ : ∃ c, w.getLast? = some c := by
        cases hcl : w.getLast? with
        | none => rw [List.getLast?_eq_none_iff] at hcl; exact absurd hcl hw
        | some c => exact ⟨c, rfl⟩
      refine ⟨c, by simpa [joinWords] using hc, ?_⟩
      exact hsp w (by simp) c
        (List.mem_of_mem_getLast? (by simp [Option.mem_def, hc]))
    | cons w2 ws2 =>
      obtain ⟨c, hc, hcs⟩ := ih (by simp)
        (fun x hx => hne x (by simp [hx]))
        (fun x hx => hsp x (by simp [hx]))
      refine ⟨c, ?_, hcs⟩
      have hJne : joinWords (w2 :: ws2) ≠ [] := by
        intro hh; rw [hh] at hc; simp at hc
      have hstep : joinWords (w :: w2 :: ws2)
          = w ++ ' ' :: joinWords (w2 :: ws2) := rfl
      rw [hstep, List.getLast?_append_of_ne_nil w (by simp)]
      cases hJ : joinWords (w2 :: ws2) with
      | nil => exact absurd hJ hJne
      | cons j js =>
        rw [hJ] at hc
        rw [List.getLast?_cons_cons]
        exact hc

lemma pyReplaceAux_getLast? (old new : List Char) (d : Char)
    (hold : old.getLast? = some d) :
    ∀ (fuel : Nat) (s : List Char), s.length ≤ fuel → ∀ c : Char,
      s.getLast? = some c → c ≠ d →
      (pyReplaceAux old new fuel s).getLast? = some c := by
  intro fuel
  induction fuel with
  | zero =>
    intro s hs c hc _
    have hnil : s = [] := by
      cases s with
      | nil => rfl
      | cons a t => simp at hs
    subst hnil; simp at hc
  | succ fuel ih =>
    intro s hs c hc hne
    have holdne : old ≠ [] := by
      intro hh; rw [hh] at hold; simp at hold
    cases s with
    | nil => simp at hc
    | cons a rest =>
      by_cases hpre : old.isPrefixOf (a :: rest)
      · have heq : pyReplaceAux old new (fuel + 1) (a :: rest)
            = new ++ pyReplaceAux old new fuel ((a :: rest).drop old.length) := by
          simp [pyReplaceAux, holdne, hpre]
        have hp : old <+: (a :: rest) := List.isPrefixOf_iff_prefix.mp hpre
        obtain ⟨t, ht⟩ := hp
        have hdrop : (a :: rest).drop old.length = t := by
          rw [← ht, List.drop_left]
        cases t with
        | nil =>
          exfalso
          rw [List.append_nil] at ht
          rw [ht] at hold
          rw [hc] at hold
          exact hne (Option.some.inj hold)
        | cons x xs =>
          have hlast : (x :: xs).getLast? = some c := by
            rw [← ht] at hc
            rwa [List.getLast?_append_of_ne_nil old (by simp)] at hc
          have hlen : (x :: xs).length ≤ fuel := by
            have h2 : old.length + (x :: xs).length = (a :: rest).length := by
              rw [← ht]; simp
            have h3 : 0 < old.length := List.length_pos.mpr holdne
            simp only [List.length_cons] at hs h2 ⊢
            omega
          have hrec := ih (x :: xs) hlen c hlast hne
          have hrne : pyReplaceAux old new fuel (x :: xs) ≠ [] := by
            intro hh; rw [hh] at hrec; simp at hrec
          rw [heq, hdrop, List.getLast?_append_of_ne_nil new hrne]
          exact hrec
      · have heq : pyReplaceAux old new (fuel + 1) (a :: rest)
            = a :: pyReplaceAux old new fuel rest := by
          simp [pyReplaceAux, hpre]
        rw [heq]
        cases rest with
        | nil => simpa [pyReplaceAux] using hc
        | cons y ys =>
          have hc2 : (y :: ys).getLast? = some c := by
            rwa [List.getLast?_cons_cons] at hc
          have hlen : (y :: ys).length ≤ fuel := by
            simp only [List.length_cons] at hs ⊢; omega
          have hrec := ih (y :: ys) hlen c hc2 hne
          cases hX : pyReplaceAux old new fuel (y :: ys) with
          | nil => rw [hX] at hrec; simp at hrec
          | cons z zs =>
            rw [hX] at hrec
            rw [List.getLast?_cons_cons]
            exact hrec

lemma pyReplace_getLast? (old new s : List Char) (c d : Char)
    (hold : old.getLast? = some d) (hc : s.getLast? = some c)
    (hne : c ≠ d) : (pyReplace old new s).getLast? = some c :=
  pyReplaceAux_getLast? old new d hold s.length s le_rfl c hc hne

lemma clean_fold_getLast? {c : Char} (hcs : isPySpace c = false)
    {t : List Char} (hc : t.getLast? = some c) :
    (patterns_to_remove.foldl (fun u p => pyReplace p [' '] u) t).getLast?
      = some c := by
  have hn : c ≠ '\n' := by intro h; subst h; simp [isPySpace] at hcs
  have hsp : c ≠ ' ' := by intro h; subst h; simp [isPySpace] at hcs
  have hr : c ≠ '\r' := by intro h; subst h; simp [isPySpace] at hcs
  have htb : c ≠ '\t' := by intro h; subst h; simp [isPySpace] at hcs
  simp only [patterns_to_remove, List.foldl_cons, List.foldl_nil]
  exact pyReplace_getLast? _ _ _ c '\t' rfl
    (pyReplace_getLast? _ _ _ c '\r' rfl
      (pyReplace_getLast? _ _ _ c '\n' rfl
        (pyReplace_getLast? _ _ _ c ' ' rfl
          (pyReplace_getLast? _ _ _ c '\n' rfl hc hn) hsp) hn) hr) htb

lemma clean_review_text_nonspace (t : List Char) (hne : t ≠ [])
    (hex : ∃ c ∈ t, isPySpace c = false) :
    ∃ c ∈ clean_review_text t, isPySpace c = false := by
  have hgoal : clean_review_text t
      = pyStrip (joinWords (pySplit
          (patterns_to_remove.foldl (fun u p => pyReplace p [' '] u)
            (joinWords (pySplit t))))) := by
    simp [clean_review_text, hne]
  rw [hgoal]
  have hsp1 : pySplit t ≠ [] := pySplitAux_ne_nil t [] (Or.inr hex)
  obtain ⟨c, hc, hcs⟩ := joinWords_getLast?_nonspace (pySplit t) hsp1
    (pySplitAux_words_ne_nil t []) (pySplitAux_words_nonspace t [] (by simp))
  have ht2 := clean_fold_getLast? hcs hc
  have hct2 : c ∈ patterns_to_remove.foldl (fun u p => pyReplace p [' '] u)
      (joinWords (pySplit t)) :=
    List.mem_of_mem_getLast? (by simp [Option.mem_def, ht2])
  have hsp2 : pySplit (patterns_to_remove.foldl
      (fun u p => pyReplace p [' '] u) (joinWords (pySplit t))) ≠ [] :=
    pySplitAux_ne_nil _ [] (Or.inr ⟨c, hct2, hcs⟩)
  obtain ⟨c2, hc2, hcs2⟩ := joinWords_getLast?_nonspace _ hsp2
    (pySplitAux_words_ne_nil _ []) (pySplitAux_words_nonspace _ [] (by simp))
  have hc3 : c2 ∈ joinWords (pySplit (patterns_to_remove.foldl
      (fun u p => pyReplace p [' '] u) (joinWords (pySplit t)))) :=
    List.mem_of_mem_getLast? (by simp [Option.mem_def, hc2])
  exact pyStrip_exists_nonspace (pyStrip_ne_nil ⟨c2, hc3, hcs2⟩)

/-! ## C10: deduplication drops blank texts -/

lemma dedupAux_filter_blank :
    ∀ (l : List ReviewRec) (seen : List (List Char)),
      dedupAux seen (l.filter fun r => decide (pyStrip r.review ≠ []))
        = dedupAux seen l := by
  intro l
  induction l with
  | nil => intro seen; rfl
  | cons q rest ih =>
    intro seen
    by_cases hb : pyStrip q.review = []
    · have hd : decide (pyStrip q.review ≠ []) = false := by simp [hb]
      rw [List.filter_cons, hd]
      simp only [Bool.false_eq_true, if_false]
      have hR : dedupAux seen (q :: rest) = dedupAux seen rest := by
        simp [dedupAux, hb]
      rw [hR]
      exact ih seen
    · have hd : decide (pyStrip q.review ≠ []) = true := by simp [hb]
      rw [List.filter_cons, hd]
      simp only [if_true]
      by_cases hmem : pyStrip q.review ∈ seen
      · have h1 : dedupAux seen (q :: (rest.filter
            fun r => decide (pyStrip r.review ≠ [])))
            = dedupAux seen (rest.filter
                fun r => decide (pyStrip r.review ≠ [])) := by
          simp [dedupAux, hmem]
        have h2 : dedupAux seen (q :: rest) = dedupAux seen rest := by
          simp [dedupAux, hmem]
        rw [h1, h2]
        exact ih seen
      · have h1 : dedupAux seen (q :: (rest.filter
            fun r => decide (pyStrip r.review ≠ [])))
            = { q with review := clean_review_text (pyStrip q.review) }
                :: dedupAux (pyStrip q.review :: seen)
                  (rest.filter fun r => decide (pyStrip r.review ≠ [])) := by
          simp [dedupAux, hb, hmem]
        have h2 : dedupAux seen (q :: rest)
            = { q with review := clean_review_text (pyStrip q.review) }
                :: dedupAux (pyStrip q.review :: seen) rest := by
          simp [dedupAux, hb, hmem]
        rw [h1, h2, ih (pyStrip q.review :: seen)]

lemma dedupAux_review_ne_nil :
    ∀ (l : List ReviewRec) (seen : List (List Char)) (r : ReviewRec),
      r ∈ dedupAux seen l → pyStrip r.review ≠ [] := by
  intro l
  induction l with
  | nil => intro seen r hr; simp [dedupAux] at hr
  | cons q rest ih =>
    intro seen r hr
    by_cases hcond : pyStrip q.review ≠ [] ∧ pyStrip q.review ∉ seen
    · rw [show dedupAux seen (q :: rest)
          = { q with review := clean_review_text (pyStrip q.review) }
              :: dedupAux (pyStrip q.review :: seen) rest from by
            simp [dedupAux, hcond.1, hcond.2]] at hr
      rcases List.mem_cons.mp hr with rfl | hr
      · show pyStrip (clean_review_text (pyStrip q.review)) ≠ []
        have hex := pyStrip_exists_nonspace hcond.1
        exact pyStrip_ne_nil
          (clean_review_text_nonspace (pyStrip q.review) hcond.1 hex)
      · exact ih _ r hr
    · rw [show dedupAux seen (q :: rest) = dedupAux seen rest from by
        simp [dedupAux]
        intro h1 h2
        exact absurd ⟨h1, h2⟩ hcond] at hr
      exact ih seen r hr

/-- C10: deduplication drops every record whose text is empty or
whitespace-only after trimming (its output is unchanged when such
records are pre-filtered away, even when their texts occur only once),
and every record in its output has non-empty trimmed text. -/
theorem dedup_drops_blank (R : List ReviewRec) :
    deduplicate_reviews R
        = deduplicate_reviews
            (R.filter fun r => decide (pyStrip r.review ≠ [])) ∧
    ∀ r ∈ deduplicate_reviews R, pyStrip r.review ≠ [] :=
  ⟨(dedupAux_filter_blank R []).symm,
   fun r hr => dedupAux_review_ne_nil R [] r hr⟩

def wBlankRec : ReviewRec := ⟨(" ").toList, 0⟩

def wGoodRec : ReviewRec := ⟨("tasty food").toList, 1⟩

/-- Witness applying C10 at a concrete record list with a
whitespace-only record. -/
theorem dedup_drops_blank_witness :
    deduplicate_reviews [wBlankRec, wGoodRec]
        = deduplicate_reviews
            (([wBlankRec, wGoodRec]).filter
              fun r => decide (pyStrip r.review ≠ [])) ∧
    ∀ r ∈ deduplicate_reviews [wBlankRec, wGoodRec],
      pyStrip r.review ≠ [] :=
  dedup_drops_blank [wBlankRec, wGoodRec]

/-! ## C2: validate-then-deduplicate -/

lemma dedupAux_spec :
    ∀ (l : List ReviewRec) (seen : List (List Char)),
      ∃ L : List ReviewRec,
        (∀ r ∈ L, r ∈ l) ∧
        (L.map fun r => pyStrip r.review).Nodup ∧
        (∀ t ∈ L.map fun r => pyStrip r.review, t ∉ seen) ∧
        dedupAux seen l
          = L.map fun r =>
              { r with review := clean_review_text (pyStrip r.review) } := by
  intro l
  induction l with
  | nil =>
    intro seen
    exact ⟨[], by simp, by simp, by simp, by simp [dedupAux]⟩
  | cons q rest ih =>
    intro seen
    by_cases hcond : pyStrip q.review ≠ [] ∧ pyStrip q.review ∉ seen
    · obtain ⟨L, hmem, hnodup, hseen, heq⟩ := ih (pyStrip q.review :: seen)
      refine ⟨q :: L, ?_, ?_, ?_, ?_⟩
      · intro r hr
        rcases List.mem_cons.mp hr with rfl | hr
        · exact List.mem_cons_self r rest
        · exact List.mem_cons_of_mem q (hmem r hr)
      · rw [List.map_cons, List.nodup_cons]
        refine ⟨?_, hnodup⟩
        intro hbad
        exact hseen (pyStrip q.review) hbad (List.mem_cons_self _ _)
      · intro t ht
        rcases List.mem_cons.mp ht with rfl | ht
        · exact hcond.2
        · exact fun hts => hseen t ht (List.mem_cons_of_mem _ hts)
      · rw [show dedupAux seen (q :: rest)
            = { q with review := clean_review_text (pyStrip q.review) }
                :: dedupAux (pyStrip q.review :: seen) rest from by
              simp [dedupAux, hcond.1, hcond.2]]
        rw [heq, List.map_cons]
    · obtain ⟨L, hmem, hnodup, hseen, heq⟩ := ih seen
      refine ⟨L, fun r hr => List.mem_cons_of_mem q (hmem r hr),
        hnodup, hseen, ?_⟩
      rw [show dedupAux seen (q :: rest) = dedupAux seen rest from by
        simp [dedupAux]
        intro h1 h2
        exact absurd ⟨h1, h2⟩ hcond]
      exact heq

/-- C2 (amended): the output of `deduplicate(validate(R, min_length))`
is the normalization (via `clean_review_text`) of a list `L` of
surviving records whose PRE-normalization trimmed texts are pairwise
distinct and individually satisfy the validation predicates (trimmed
length at least `min_length`, at least one alphabetic character, not
whitespace-only).  The claim's guarantees hold of the texts as they
were when validated and compared, not of the texts after the
normalization that deduplication applies last (normalization can merge
two distinct texts or shorten one below `min_length`). -/
theorem validate_dedup_amended (R : List ReviewRec) (min_length : Nat) :
    ∃ L : List ReviewRec,
      (∀ r ∈ L,
        min_length ≤ (pyStrip r.review).length ∧
        (pyStrip r.review).any Char.isAlpha = true ∧
        pyReplace ['\t'] [] (pyReplace ['\n'] []
          (pyReplace [' '] [] (pyStrip r.review))) ≠ []) ∧
      (L.map fun r => pyStrip r.review).Nodup ∧
      deduplicate_reviews (validate_reviews R min_length)
        = L.map fun r =>
            { r with review := clean_review_text (pyStrip r.review) } := by
  obtain ⟨L, hmem, hnodup, _, heq⟩ :=
    dedupAux_spec (validate_reviews R min_length) []
  refine ⟨L, ?_, hnodup, heq⟩
  intro r hr
  have hv := hmem r hr
  unfold validate_reviews at hv
  rw [List.mem_filter] at hv
  have hk := hv.2
  simp only [validKeep, Bool.and_eq_true, decide_eq_true_eq, not_lt] at hk
  exact ⟨hk.1.1, hk.2, hk.1.2⟩

def cexRecA : ReviewRec := ⟨("Hello  world abcdefghijkl").toList, 0⟩

def cexRecB : ReviewRec := ⟨("Hello world abcdefghijkl").toList, 1⟩

def cexRecC : ReviewRec := ⟨("Rated abcdefghijklmnop").toList, 2⟩

def cexRecs : List ReviewRec := [cexRecA, cexRecB, cexRecC]

/-- C2 counterexample: on `cexRecs` with `min_length = 20` the claim
fails twice.  `cexRecA` and `cexRecB` differ only by a doubled internal
space, so both survive validation and deduplication, but normalization
collapses the spaces and the output holds two records with identical
trimmed text.  `cexRecC`'s trimmed text has length 22, but
normalization removes the artifact prefix token and leaves a
16-character text, below `min_length`. -/
theorem validate_dedup_claim_cex :
    ¬ (((deduplicate_reviews (validate_reviews cexRecs 20)).map
          fun r => pyStrip r.review).Nodup) ∧
    ¬ (∀ r ∈ deduplicate_reviews (validate_reviews cexRecs 20),
        20 ≤ (pyStrip r.review).length) := by
  constructor
  · decide
  · decide
